import Mathlib

/-!
Verification of the dnsctl control-plane utility.

Go strings are modelled as lists of byte values (`List Nat`); the relevant
code paths only manipulate ASCII bytes, so Go's rune-wise `strings.ToLower`
and `strings.ToUpper` coincide with the byte-wise ASCII maps used here.
External collaborators (the rndc control channel, the filesystem, the DNS
transport, `time.Now`) are modelled as explicit oracle parameters; the
`github.com/miekg/dns` message-building primitives (`SetUpdate`,
`RemoveRRset`, `Insert`, `Fqdn`) are modelled after their RFC 2136
semantics, which the callers in this repository rely on.
-/

/-- Byte strings: a Go string as its list of byte values. -/
abbrev Str := List Nat

/-- Byte string of an ASCII string literal. -/
def strOf (s : String) : Str := s.data.map Char.toNat

/-- ASCII white space as recognised by Go's `unicode.IsSpace` on ASCII bytes. -/
def isSpaceB (b : Nat) : Bool := b = 32 || (9 ≤ b && b ≤ 13)

/-- ASCII lowercase map on one byte (Go `strings.ToLower` on ASCII). -/
def toLowerB (b : Nat) : Nat := if 65 ≤ b ∧ b ≤ 90 then b + 32 else b

/-- ASCII uppercase map on one byte (Go `strings.ToUpper` on ASCII). -/
def toUpperB (b : Nat) : Nat := if 97 ≤ b ∧ b ≤ 122 then b - 32 else b

/-- Go `strings.ToLower` on an ASCII byte string. -/
def strToLower (s : Str) : Str := s.map toLowerB

/-- Go `strings.ToUpper` on an ASCII byte string. -/
def strToUpper (s : Str) : Str := s.map toUpperB

/-- Go `strings.TrimSpace`: strip leading and trailing white space. -/
def trimSpace (s : Str) : Str :=
  ((s.dropWhile isSpaceB).reverse.dropWhile isSpaceB).reverse

/-- Go `strings.HasSuffix s suffix`. -/
def hasSuffix (s suffix : Str) : Bool := decide (suffix <:+ s)

/-- Go `strings.Split s sep` for a one-byte separator. -/
def splitOnByte (sep : Nat) : Str → List Str
  | [] => [[]]
  | b :: rest =>
    match splitOnByte sep rest with
    | [] => [[]]
    | s :: ss => if b = sep then [] :: s :: ss else (b :: s) :: ss

/-- Embeds `NormalizeOwner` from `internal/zone/normalize.go`: `@` means the
apex, inputs ending with a dot must have the (lowercased) zone as a string
suffix, anything else is suffixed with `.` + zone; the result is lowercased. -/
def NormalizeOwner (input zone : Str) : Option Str :=
  let i := trimSpace input
  if i = strOf "@" then some zone
  else if hasSuffix i (strOf ".") then
    if hasSuffix (strToLower i) (strToLower zone) then some (strToLower i)
    else none
  else some (strToLower (i ++ strOf "." ++ zone))

/-- Embeds `IsWithinZone` from `internal/zone/normalize.go`: lowercase both
names, force trailing dots, and test the zone as a string suffix. -/
def IsWithinZone (owner zone : Str) : Bool :=
  let o := strToLower owner
  let z := strToLower zone
  let o2 := if hasSuffix o (strOf ".") then o else o ++ strOf "."
  let z2 := if hasSuffix z (strOf ".") then z else z ++ strOf "."
  hasSuffix o2 z2

/-- Spec-side predicate, following the specification's words for claim C1:
the apex `zone` is a proper suffix of `owner` as a DNS name, i.e. the owner
lies strictly below the apex (the part of `owner` before the apex is a
non-empty run of labels ending at a label boundary). -/
def strictlyBelowApex (owner zone : Str) : Bool :=
  decide (zone <:+ owner) && decide (zone.length < owner.length)
    && hasSuffix (owner.take (owner.length - zone.length)) (strOf ".")

/-- Embeds `dnsWireFormat` from `internal/zone/normalize.go`: trim, force a
trailing dot, then emit each non-empty dot-separated label as a length byte
(a Go `byte` cast, hence mod 256) followed by the lowercased label bytes,
terminated by a zero byte. -/
def dnsWireFormat (name : Str) : List Nat :=
  let t := trimSpace name
  let n := if hasSuffix t (strOf ".") then t else t ++ strOf "."
  ((splitOnByte 46 n).filter (fun l => !l.isEmpty)).foldr
    (fun label acc => (label.length % 256) :: (strToLower label ++ acc)) [0]

/-- Rotate a 32-bit word left by `k` bits. -/
def rotl32 (n k : Nat) : Nat := ((n <<< k) ||| (n >>> (32 - k))) % 4294967296

/-- Big-endian 32-bit words from a byte list (groups of four). -/
def beWords : List Nat → List Nat
  | b0 :: b1 :: b2 :: b3 :: rest =>
    (((b0 * 256 + b1) * 256 + b2) * 256 + b3) :: beWords rest
  | _ => []

/-- Big-endian 8-byte encoding of a 64-bit value. -/
def be8 (n : Nat) : List Nat :=
  [n >>> 56 % 256, n >>> 48 % 256, n >>> 40 % 256, n >>> 32 % 256,
   n >>> 24 % 256, n >>> 16 % 256, n >>> 8 % 256, n % 256]

/-- Big-endian 4-byte encoding of a 32-bit value. -/
def be4 (n : Nat) : List Nat :=
  [n >>> 24 % 256, n >>> 16 % 256, n >>> 8 % 256, n % 256]

/-- SHA-1 message padding: `0x80`, zeros to 56 mod 64, 8-byte bit length. -/
def sha1Pad (msg : List Nat) : List Nat :=
  msg ++ 128 :: (List.replicate ((119 - msg.length % 64) % 64) 0 ++ be8 (msg.length * 8))

/-- One step of the SHA-1 message-schedule extension. -/
def sha1ExtendStep (w : List Nat) : List Nat :=
  let n := w.length
  w ++ [rotl32 ((w.getD (n - 3) 0) ^^^ (w.getD (n - 8) 0) ^^^
                (w.getD (n - 14) 0) ^^^ (w.getD (n - 16) 0)) 1]

/-- SHA-1 message schedule: extend 16 words to 80. -/
def sha1Schedule (ws : List Nat) : List Nat := sha1ExtendStep^[64] ws

/-- SHA-1 round function `f`. -/
def sha1F (i b c d : Nat) : Nat :=
  if i < 20 then (b &&& c) ||| ((4294967295 ^^^ b) &&& d)
  else if i < 40 then b ^^^ c ^^^ d
  else if i < 60 then (b &&& c) ||| (b &&& d) ||| (c &&& d)
  else b ^^^ c ^^^ d

/-- SHA-1 round constants. -/
def sha1K (i : Nat) : Nat :=
  if i < 20 then 1518500249
  else if i < 40 then 1859775393
  else if i < 60 then 2400959708
  else 3395469782

/-- SHA-1 compression of one 64-byte block. -/
def sha1Compress (h : Nat × Nat × Nat × Nat × Nat) (block : List Nat) :
    Nat × Nat × Nat × Nat × Nat :=
  let w := sha1Schedule (beWords block)
  let st := (List.range 80).foldl
    (fun (st : Nat × Nat × Nat × Nat × Nat) i =>
      let t := (rotl32 st.1 5 + sha1F i st.2.1 st.2.2.1 st.2.2.2.1 +
                st.2.2.2.2 + sha1K i + w.getD i 0) % 4294967296
      (t, st.1, rotl32 st.2.1 30, st.2.2.1, st.2.2.2.1)) h
  ((h.1 + st.1) % 4294967296, (h.2.1 + st.2.1) % 4294967296,
   (h.2.2.1 + st.2.2.1) % 4294967296, (h.2.2.2.1 + st.2.2.2.1) % 4294967296,
   (h.2.2.2.2 + st.2.2.2.2) % 4294967296)

/-- Split a byte list into 64-byte blocks (fuel-based structural recursion;
the fuel is the list length, and every step consumes at least one element). -/
def sha1BlocksAux : Nat → List Nat → List (List Nat)
  | 0, _ => []
  | _ + 1, [] => []
  | n + 1, b :: rest =>
    (b :: rest).take 64 :: sha1BlocksAux n ((b :: rest).drop 64)

/-- Split a byte list into 64-byte blocks. -/
def sha1Blocks (l : List Nat) : List (List Nat) := sha1BlocksAux l.length l

/-- SHA-1 digest (20 bytes) of a byte message. -/
def sha1 (msg : List Nat) : List Nat :=
  let h := (sha1Blocks (sha1Pad msg)).foldl sha1Compress
    (1732584193, 4023233417, 2562383102, 271733878, 3285377520)
  be4 h.1 ++ be4 h.2.1 ++ be4 h.2.2.1 ++ be4 h.2.2.2.1 ++ be4 h.2.2.2.2

/-- Lowercase hex digit byte for a nibble. -/
def hexDigit (n : Nat) : Nat := if n < 10 then 48 + n else 87 + n

/-- Lowercase hex encoding of a byte list (Go `hex.EncodeToString`). -/
def hexEncode (bytes : List Nat) : List Nat :=
  bytes.foldr (fun b acc => hexDigit (b / 16) :: hexDigit (b % 16) :: acc) []

/-- Embeds `SHA1WireLabel` from `internal/zone/normalize.go`: the lowercase
hex SHA-1 digest of the DNS wire format of the zone name. -/
def SHA1WireLabel (zone : Str) : Str := hexEncode (sha1 (dnsWireFormat zone))

/-- The ACME challenge label prefix used by `internal/acme/acme.go`. -/
def acmeLabel : Str := strOf "_acme-challenge."

/-- Embeds the helper from `internal/acme/acme.go` that tests whether `s`
starts with `pre`, comparing ASCII bytes case-insensitively. -/
def containsPrefix (s pre : Str) : Bool :=
  if s.length < pre.length then false
  else decide (strToLower (s.take pre.length) = strToLower pre)

/-- Embeds the owner computation of `ACMEHandler.Present` from
`internal/acme/acme.go`, given an already-normalized zone apex `zoneFQDN`
(the result of `NormalizeZone`): normalize the owner, then — only when the
owner is longer than 16 bytes and does not already carry the ACME label —
strip the zone suffix and prepend `_acme-challenge.`. -/
def presentOwner (zoneFQDN fqdn : Str) : Option Str :=
  match NormalizeOwner fqdn zoneFQDN with
  | none => none
  | some owner =>
    if 16 < owner.length ∧ ( containsPrefix owner acmeLabel) = false then
      let baseOwner :=
        if zoneFQDN.length < owner.length ∧
            owner.drop (owner.length - zoneFQDN.length) = zoneFQDN then
          let b := owner.take (owner.length - zoneFQDN.length)
          if b.getLast? = some 46 then b.dropLast else b
        else owner
      some (acmeLabel ++ baseOwner ++ strOf "." ++ zoneFQDN)
    else some owner

/-- Embeds the TTL defaulting of `ACMEHandler.Present`: 0 means 60. -/
def presentTTL (ttl : Nat) : Nat := if ttl = 0 then 60 else ttl

/-- Record type string passed by `ACMEHandler.Present` to `Upsert`. -/
def presentType : Str := strOf "TXT"

/-- DNS class IN. -/
def classIN : Nat := 1

/-- DNS class ANY. -/
def classANY : Nat := 255

/-- DNS record type PTR. -/
def typePTR : Nat := 12

/-- A resource record (or RFC 2136 update-section entry). -/
structure RR where
  name : Str
  rrtype : Nat
  rrclass : Nat
  ttl : Nat
  rdata : Str
deriving DecidableEq

/-- An RFC 2136 update message: target zone and update-section entries. -/
structure Msg where
  zone : Str
  ops : List RR
deriving DecidableEq

/-- Models `dns.Msg.SetUpdate`: fresh update message for a zone. -/
def setUpdate (zone : Str) : Msg := { zone := zone, ops := [] }

/-- Models `dns.Msg.RemoveRRset` (RFC 2136 2.5.2): for each given record,
append an entry keeping name and type, with class ANY, TTL 0, empty RDATA. -/
def removeRRset (m : Msg) (rrs : List RR) : Msg :=
  { m with ops := m.ops ++ rrs.map (fun r =>
      { name := r.name, rrtype := r.rrtype, rrclass := classANY, ttl := 0, rdata := [] }) }

/-- Models `dns.Msg.Insert` (RFC 2136 2.5.1): append the records with the
class forced to IN. -/
def msgInsert (m : Msg) (rrs : List RR) : Msg :=
  { m with ops := m.ops ++ rrs.map (fun r => { r with rrclass := classIN }) }

/-- Models `dns.Fqdn`: force a trailing dot. -/
def Fqdn (s : Str) : Str := if hasSuffix s (strOf ".") then s else s ++ strOf "."

/-- Embeds `Client.AddRRset` from the update package: a fresh update message
with a delete-RRset entry for the (owner, type) of the first record, then the
insertion of all records. -/
def AddRRset (zone : Str) (rrs : List RR) : Msg :=
  let m := setUpdate zone
  let m2 := match rrs with
    | [] => m
    | r0 :: _ => removeRRset m
        [{ name := r0.name, rrtype := r0.rrtype, rrclass := classANY, ttl := 0, rdata := [] }]
  msgInsert m2 rrs

/-- Embeds `BuildPTRUpdate` from the update package: at the catalog owner
`<label>.zones.<catalogZone>`, delete the PTR RRset and insert one PTR to the
member zone. The Go function's error result is always nil. -/
def BuildPTRUpdate (catalogZone memberZone label : Str) (ttl : Nat) : Msg :=
  let m := setUpdate catalogZone
  let catalogOwner := label ++ strOf ".zones." ++ catalogZone
  let m2 := removeRRset m
    [{ name := Fqdn catalogOwner, rrtype := typePTR, rrclass := classANY, ttl := 0, rdata := [] }]
  msgInsert m2
    [{ name := Fqdn catalogOwner, rrtype := typePTR, rrclass := classIN, ttl := ttl,
       rdata := Fqdn memberZone }]

/-- Embeds `BuildPTRDelete` from the update package: delete the PTR RRset at
the catalog owner. -/
def BuildPTRDelete (catalogZone label : Str) : Msg :=
  let m := setUpdate catalogZone
  let catalogOwner := label ++ strOf ".zones." ++ catalogZone
  removeRRset m
    [{ name := Fqdn catalogOwner, rrtype := typePTR, rrclass := classANY, ttl := 0, rdata := [] }]

/-- RFC 2136 semantics of one update-section entry on a zone state: a
class-ANY empty-RDATA entry deletes the whole RRset at its (name, type); any
other entry adds the record. -/
def applyOp (st : List RR) (op : RR) : List RR :=
  if op.rrclass = classANY ∧ op.rdata = [] then
    st.filter (fun r => !(decide (r.name = op.name ∧ r.rrtype = op.rrtype)))
  else st ++ [op]

/-- RFC 2136 semantics of a whole update message on a zone state. -/
def applyMsg (st : List RR) (m : Msg) : List RR := m.ops.foldl applyOp st

/-- Observable side effects of a zone lifecycle operation, in order. -/
inductive Act where
  | writeFile
  | removeFile
  | addZone
  | delZone (removeFile : Bool)
  | sendCatalogUpsert
  | sendCatalogDelete
deriving DecidableEq

/-- Oracle outcomes for one `CreateZone` run: success of the lock, the
directory setup, `rndc.ZoneStatus` (error flag and existence answer),
`WriteZoneFile`, `rndc.AddZone`, and the catalog update exchange. -/
structure CreateEnv where
  normOk : Bool
  lockOk : Bool
  dirsOk : Bool
  statusErr : Bool
  statusExists : Bool
  writeOk : Bool
  addZoneOk : Bool
  catalogSendOk : Bool
deriving DecidableEq

/-- Embeds `ensureCatalogMembership` from `internal/zone/create.go`: build
the catalog PTR upsert (never fails) and send it; on success record
`catalog_updated`. -/
def ensureCatalog (sendOk : Bool) (changes : List String) (trace : List Act) :
    Bool × List String × List Act :=
  let trace2 := trace ++ [Act.sendCatalogUpsert]
  if sendOk then (true, changes ++ ["catalog_updated"], trace2)
  else (false, changes, trace2)

/-- Embeds the control flow of `Creator.CreateZone` from
`internal/zone/create.go` over the oracle environment, returning success,
the recorded changes, and the trace of attempted side effects. The
filesystem is ideal: a remove attempt removes the file. -/
def CreateZone (env : CreateEnv) : Bool × List String × List Act :=
  if !env.normOk then (false, [], [])
  else if !env.lockOk then (false, [], [])
  else if !env.dirsOk then (false, [], [])
  else if !env.statusErr && env.statusExists then
    ensureCatalog env.catalogSendOk ["zone_already_exists"] []
  else if !env.writeOk then (false, [], [])
  else
    let changes := ["zone_file_created"]
    let trace := [Act.writeFile]
    if !env.addZoneOk then
      (false, changes, trace ++ [Act.addZone, Act.removeFile])
    else
      let changes2 := changes ++ ["zone_added"]
      let trace2 := trace ++ [Act.addZone]
      match ensureCatalog env.catalogSendOk changes2 trace2 with
      | (true, ch, tr) => (true, ch, tr)
      | (false, ch, tr) => (false, ch, tr ++ [Act.delZone true, Act.removeFile])

/-- Whether the zone file exists after a trace of side effects, starting
from a state where it does not exist; `DelZone` with the remove flag also
removes the file. -/
def fileAfter (trace : List Act) : Bool :=
  trace.foldl (fun st a =>
    match a with
    | Act.writeFile => true
    | Act.removeFile => false
    | Act.delZone true => false
    | _ => st) false

/-- Outcome of the underlying `os.Remove` call. -/
inductive RemoveOutcome where
  | ok
  | notExist
  | otherErr
deriving DecidableEq

/-- Embeds `RemoveZoneFile` from `internal/zone/file.go`: fail only when
`os.Remove` errored and the error is not is-not-exist; returns true for nil
error (success). -/
def RemoveZoneFile (o : RemoveOutcome) : Bool :=
  if (o ≠ RemoveOutcome.ok) ∧ ¬(o = RemoveOutcome.notExist) then false else true

/-- Oracle outcomes for one `DeleteZone` run. -/
structure DeleteEnv where
  normOk : Bool
  lockOk : Bool
  catalogSendOk : Bool
  delZoneOk : Bool
  removeOutcome : RemoveOutcome
deriving DecidableEq

/-- Embeds the control flow of `Deleter.DeleteZone` (with its helper
`removeFromCatalog`) over the oracle environment: catalog PTR delete first
(abort on failure), then `rndc.DelZone`, then best-effort zone-file removal
whose failure only records `zone_file_cleanup_failed`. -/
def DeleteZone (env : DeleteEnv) : Bool × List String × List Act :=
  if !env.normOk then (false, [], [])
  else if !env.lockOk then (false, [], [])
  else
    let trace := [Act.sendCatalogDelete]
    if !env.catalogSendOk then (false, [], trace)
    else
      let changes := ["catalog_updated"]
      let trace2 := trace ++ [Act.delZone true]
      if !env.delZoneOk then (false, changes, trace2)
      else
        let changes2 := changes ++ ["zone_deleted"]
        let trace3 := trace2 ++ [Act.removeFile]
        if RemoveZoneFile env.removeOutcome then
          (true, changes2 ++ ["zone_file_removed"], trace3)
        else
          (true, changes2 ++ ["zone_file_cleanup_failed"], trace3)

/-- Embeds `BumpSerial` from `internal/zone/file.go`; `time.Now`-derived
`todaySerial` is an explicit parameter, and the Go `uint32` increment is
arithmetic mod 2^32. -/
def BumpSerial (todaySerial current : Nat) : Nat :=
  if current ≥ todaySerial then (current + 1) % 4294967296 else todaySerial

-- ======================= THEOREMS =======================

/-- Byte string of the root marker. -/
theorem strOf_dot : strOf "." = [46] := by decide

/-- ASCII lowercasing is idempotent on one byte. -/
theorem toLowerB_toLowerB (b : Nat) : toLowerB (toLowerB b) = toLowerB b := by
  unfold toLowerB
  by_cases h : 65 ≤ b ∧ b ≤ 90
  · rw [if_pos h, if_neg (by omega)]
  · rw [if_neg h, if_neg h]

/-- ASCII lowercasing is idempotent on byte strings. -/
theorem strToLower_idem (s : Str) : strToLower (strToLower s) = strToLower s := by
  simp only [strToLower, List.map_map]
  exact List.map_congr_left (fun b _ => toLowerB_toLowerB b)

/-- Lowercasing fixes the dot byte. -/
theorem toLowerB_dot_iff (b : Nat) : toLowerB b = 46 ↔ b = 46 := by
  unfold toLowerB
  split <;> omega

/-- Uppercasing fixes the dot byte. -/
theorem toUpperB_dot_iff (b : Nat) : toUpperB b = 46 ↔ b = 46 := by
  unfold toUpperB
  split <;> omega

/-- Uppercasing then lowercasing a byte is plain lowercasing. -/
theorem toLowerB_toUpperB (b : Nat) : toLowerB (toUpperB b) = toLowerB b := by
  unfold toLowerB toUpperB
  by_cases h : 97 ≤ b ∧ b ≤ 122
  · rw [if_pos h, if_pos (by omega), if_neg (by omega)]
    omega
  · rw [if_neg h]

/-- Uppercasing does not change whether a byte is white space. -/
theorem isSpaceB_toUpperB (b : Nat) : isSpaceB (toUpperB b) = isSpaceB b := by
  rw [Bool.eq_iff_iff]
  unfold isSpaceB toUpperB
  split <;> simp <;> omega

/-- A singleton is a suffix exactly of lists with that last element. -/
theorem singleton_suffix_iff (l : List Nat) (b : Nat) :
    [b] <:+ l ↔ l.getLast? = some b := by
  constructor
  · rintro ⟨u, rfl⟩
    rw [List.getLast?_append]
    rfl
  · intro h
    cases l with
    | nil => simp at h
    | cons a t =>
      refine ⟨(a :: t).dropLast, ?_⟩
      simpa using List.dropLast_append_getLast? (l := a :: t) (a := b) h

/-- A suffix stays a suffix after appending on the right of both sides. -/
theorem suffix_append_right (s t x : List Nat) (h : s <:+ t) : s ++ x <:+ t ++ x := by
  obtain ⟨u, rfl⟩ := h
  exact ⟨u, (List.append_assoc u s x).symm⟩

/-- Filtering twice with the same predicate filters once. -/
theorem filter_self_filter (p : RR → Bool) (l : List RR) :
    (l.filter p).filter p = l.filter p := by
  induction l with
  | nil => rfl
  | cons a t ih =>
    by_cases h : p a = true
    · simp [List.filter_cons, h, ih]
    · simp only [List.filter_cons, Bool.not_eq_true] at *
      rw [h]
      simpa using ih

/-- Dropping nothing when no element satisfies the predicate. -/
theorem dropWhile_eq_self_of (p : Nat → Bool) (l : List Nat)
    (h : ∀ b ∈ l, p b = false) : l.dropWhile p = l := by
  cases l with
  | nil => rfl
  | cons a t =>
    rw [List.dropWhile_cons, h a (List.mem_cons_self a t)]
    simp

/-- Trimming white space from a string without white space is the identity. -/
theorem trimSpace_eq_self (s : Str) (h : ∀ b ∈ s, isSpaceB b = false) :
    trimSpace s = s := by
  unfold trimSpace
  rw [dropWhile_eq_self_of _ _ h,
      dropWhile_eq_self_of _ _ (fun b hb => h b (List.mem_reverse.mp hb)),
      List.reverse_reverse]

-- ===== C8: BumpSerial =====

/-- Claim C8 counterexample: at the maximal `uint32` input the Go increment
wraps to 0, which is neither strictly greater than the input nor at least
today's serial. -/
theorem bumpSerial_wraparound_counterexample :
    BumpSerial 2026101100 4294967295 = 0 ∧
    ¬(4294967295 < BumpSerial 2026101100 4294967295 ∧
      2026101100 ≤ BumpSerial 2026101100 4294967295) := by
  constructor
  · decide
  · decide

/-- Claim C8 (amended): for today's serial `t`, `BumpSerial` returns `t` when
`current < t` and the wrapped increment `current+1 mod 2^32` otherwise; for
every input that does not overflow the `uint32` increment (`current+1 < 2^32`)
the output is strictly greater than the input and at least `t`. -/
theorem bumpSerial_amended (t current : Nat) (hc : current + 1 < 4294967296) :
    (current < t → BumpSerial t current = t) ∧
    (t ≤ current → BumpSerial t current = current + 1) ∧
    current < BumpSerial t current ∧ t ≤ BumpSerial t current := by
  unfold BumpSerial
  by_cases h : current ≥ t
  · rw [if_pos h, Nat.mod_eq_of_lt hc]
    exact ⟨fun hlt => absurd hlt (by omega), fun _ => rfl, by omega, by omega⟩
  · rw [if_neg h]
    exact ⟨fun _ => rfl, fun hle => absurd hle (by omega), by omega, Nat.le_refl t⟩

/-- Witness for the amended C8 at a concrete serial and date. -/
theorem bumpSerial_amended_witness :
    2026101105 + 1 < 4294967296 ∧
    ((2026101105 < 2026101100 → BumpSerial 2026101100 2026101105 = 2026101100) ∧
     (2026101100 ≤ 2026101105 → BumpSerial 2026101100 2026101105 = 2026101105 + 1) ∧
     2026101105 < BumpSerial 2026101100 2026101105 ∧
     2026101100 ≤ BumpSerial 2026101100 2026101105) :=
  ⟨by decide, bumpSerial_amended 2026101100 2026101105 (by decide)⟩

-- ===== C10: RemoveZoneFile =====

/-- Claim C10: `RemoveZoneFile` succeeds when the file is already absent, it
fails only when `os.Remove` fails with an error other than not-exist, and a
`DeleteZone` run whose file is already gone records `zone_file_removed` and
succeeds. -/
theorem removeZoneFile_missing_ok :
    RemoveZoneFile RemoveOutcome.notExist = true ∧
    (∀ o, RemoveZoneFile o = false ↔ o = RemoveOutcome.otherErr) ∧
    (DeleteZone ⟨true, true, true, true, RemoveOutcome.notExist⟩).1 = true ∧
    "zone_file_removed" ∈ (DeleteZone ⟨true, true, true, true, RemoveOutcome.notExist⟩).2.1 :=
  ⟨by decide, fun o => by cases o <;> decide, by decide, by decide⟩

-- ===== C2: ACME Present =====

/-- Claim C2 (code bug): with canonical zone `example.com.` and owner input
`www`, the normalized owner `www.example.com.` is exactly 16 bytes long, so
the `len(owner) > 16` guard in `Present` skips prepending `_acme-challenge.`
and the owner handed to `Upsert` does not begin with the ACME label —
contradicting the function's own comment and the specification. The TTL
defaulting (0 becomes 60) and the TXT record type behave as claimed. -/
theorem acme_present_missing_label :
    presentOwner (strOf "example.com.") (strOf "www") = some (strOf "www.example.com.") ∧
    containsPrefix (strOf "www.example.com.") acmeLabel = false ∧
    presentTTL 0 = 60 ∧ presentType = strOf "TXT" := by
  refine ⟨by decide, by decide, by decide, by decide⟩

-- ===== C6: AddRRset =====

/-- Claim C6: for a non-empty record list sharing one (owner, type), the
update message built by `AddRRset` is exactly a class-ANY TTL-0 delete-RRset
entry for that owner and type followed by every record with class IN. -/
theorem addRRset_delete_then_insert (zone owner : Str) (t : Nat) (rrs : List RR)
    (hne : rrs ≠ [])
    (hshare : ∀ r ∈ rrs, r.name = owner ∧ r.rrtype = t) :
    (AddRRset zone rrs).ops =
      { name := owner, rrtype := t, rrclass := classANY, ttl := 0, rdata := [] } ::
        rrs.map (fun r => { r with rrclass := classIN }) := by
  cases rrs with
  | nil => exact absurd rfl hne
  | cons r0 rest =>
    obtain ⟨hn, ht⟩ := hshare r0 (List.mem_cons_self r0 rest)
    simp [AddRRset, setUpdate, removeRRset, msgInsert, hn, ht]

/-- Witness for C6 at a concrete two-record TXT RRset. -/
theorem addRRset_delete_then_insert_witness :
    ([⟨strOf "www.example.com.", 16, 1, 300, strOf "v1"⟩,
      ⟨strOf "www.example.com.", 16, 1, 300, strOf "v2"⟩] : List RR) ≠ [] ∧
    (∀ r ∈ ([⟨strOf "www.example.com.", 16, 1, 300, strOf "v1"⟩,
      ⟨strOf "www.example.com.", 16, 1, 300, strOf "v2"⟩] : List RR),
      r.name = strOf "www.example.com." ∧ r.rrtype = 16) ∧
    (AddRRset (strOf "example.com.")
      [⟨strOf "www.example.com.", 16, 1, 300, strOf "v1"⟩,
       ⟨strOf "www.example.com.", 16, 1, 300, strOf "v2"⟩]).ops =
      { name := strOf "www.example.com.", rrtype := 16, rrclass := classANY,
        ttl := 0, rdata := [] } ::
        ([⟨strOf "www.example.com.", 16, 1, 300, strOf "v1"⟩,
          ⟨strOf "www.example.com.", 16, 1, 300, strOf "v2"⟩] : List RR).map
          (fun r => { r with rrclass := classIN }) :=
  ⟨by decide, by decide,
    addRRset_delete_then_insert (strOf "example.com.") (strOf "www.example.com.") 16 _
      (by decide) (by decide)⟩

-- ===== C4: BuildPTRUpdate =====

/-- Claim C4: the catalog membership message targets the single owner
`<label>.zones.<catalog>`, consisting of a PTR delete-RRset entry followed by
exactly one PTR insertion to the member apex with the given TTL, and applying
its RFC 2136 RRset semantics twice to any state equals applying it once. -/
theorem buildPTRUpdate_shape_idempotent (c z l : Str) (t : Nat) (st : List RR) :
    (BuildPTRUpdate c z l t).ops =
      [{ name := Fqdn (l ++ strOf ".zones." ++ c), rrtype := typePTR,
         rrclass := classANY, ttl := 0, rdata := [] },
       { name := Fqdn (l ++ strOf ".zones." ++ c), rrtype := typePTR,
         rrclass := classIN, ttl := t, rdata := Fqdn z }] ∧
    applyMsg (applyMsg st (BuildPTRUpdate c z l t)) (BuildPTRUpdate c z l t) =
      applyMsg st (BuildPTRUpdate c z l t) := by
  constructor
  · simp [BuildPTRUpdate, setUpdate, removeRRset, msgInsert]
  · simp only [applyMsg, BuildPTRUpdate, setUpdate, removeRRset, msgInsert,
      List.nil_append, List.map, List.foldl]
    simp only [applyOp, classANY, classIN]
    norm_num

-- ===== C3: CreateZone compensation =====

/-- Claim C3: whenever `CreateZone` fails after having written the stub zone
file, a deletion of that file is attempted before returning (the file does
not survive the trace), and when the failure happened after a successful
`AddZone` (the catalog step failed) a `DelZone` with file removal is also
attempted. -/
theorem createZone_failure_cleans_up (env : CreateEnv)
    (hfail : (CreateZone env).1 = false)
    (hwrote : Act.writeFile ∈ (CreateZone env).2.2) :
    Act.removeFile ∈ (CreateZone env).2.2 ∧
    fileAfter (CreateZone env).2.2 = false ∧
    (env.addZoneOk = true → Act.delZone true ∈ (CreateZone env).2.2) := by
  obtain ⟨n, l, d, se, sx, w, a, c⟩ := env
  revert hfail hwrote
  cases n <;> cases l <;> cases d <;> cases se <;> cases sx <;> cases w <;>
    cases a <;> cases c <;> decide

/-- Witness for C3: a run where `AddZone` fails after the file was written. -/
theorem createZone_failure_cleans_up_witness :
    (CreateZone ⟨true, true, true, false, false, true, false, true⟩).1 = false ∧
    Act.writeFile ∈ (CreateZone ⟨true, true, true, false, false, true, false, true⟩).2.2 ∧
    (Act.removeFile ∈ (CreateZone ⟨true, true, true, false, false, true, false, true⟩).2.2 ∧
     fileAfter (CreateZone ⟨true, true, true, false, false, true, false, true⟩).2.2 = false ∧
     ((⟨true, true, true, false, false, true, false, true⟩ : CreateEnv).addZoneOk = true →
       Act.delZone true ∈ (CreateZone ⟨true, true, true, false, false, true, false, true⟩).2.2)) :=
  ⟨by decide, by decide,
    createZone_failure_cleans_up ⟨true, true, true, false, false, true, false, true⟩
      (by decide) (by decide)⟩

-- ===== C7: DeleteZone ordering and warnings =====

/-- Claim C7: in every `DeleteZone` run the catalog PTR delete is sent
before `DelZone` is attempted; a catalog failure aborts with an error before
`DelZone` or any file removal; and once `DelZone` succeeded the operation
succeeds, recording `zone_file_removed` when the file removal succeeds and
only the warning `zone_file_cleanup_failed` when it fails. -/
theorem deleteZone_order_and_warnings (env : DeleteEnv)
    (hn : env.normOk = true) (hl : env.lockOk = true) :
    (Act.delZone true ∈ (DeleteZone env).2.2 →
      Act.sendCatalogDelete ∈ (DeleteZone env).2.2 ∧
      (DeleteZone env).2.2.indexOf Act.sendCatalogDelete <
        (DeleteZone env).2.2.indexOf (Act.delZone true)) ∧
    (env.catalogSendOk = false →
      (DeleteZone env).1 = false ∧
      Act.delZone true ∉ (DeleteZone env).2.2 ∧
      Act.removeFile ∉ (DeleteZone env).2.2) ∧
    (env.catalogSendOk = true → env.delZoneOk = true →
      (DeleteZone env).1 = true ∧
      (RemoveZoneFile env.removeOutcome = false →
        "zone_file_cleanup_failed" ∈ (DeleteZone env).2.1 ∧
        "zone_file_removed" ∉ (DeleteZone env).2.1) ∧
      (RemoveZoneFile env.removeOutcome = true →
        "zone_file_removed" ∈ (DeleteZone env).2.1)) := by
  obtain ⟨n, l, c, d, o⟩ := env
  revert hn hl
  cases n <;> cases l <;> cases c <;> cases d <;> cases o <;> decide

/-- Witness for C7: a run where the file removal fails with a real error. -/
theorem deleteZone_order_and_warnings_witness :
    (⟨true, true, true, true, RemoveOutcome.otherErr⟩ : DeleteEnv).normOk = true ∧
    (⟨true, true, true, true, RemoveOutcome.otherErr⟩ : DeleteEnv).lockOk = true ∧
    ((DeleteZone ⟨true, true, true, true, RemoveOutcome.otherErr⟩).1 = true ∧
     "zone_file_cleanup_failed" ∈
       (DeleteZone ⟨true, true, true, true, RemoveOutcome.otherErr⟩).2.1) := by
  refine ⟨by decide, by decide, ?_⟩
  have h := deleteZone_order_and_warnings ⟨true, true, true, true, RemoveOutcome.otherErr⟩
    (by decide) (by decide)
  exact ⟨(h.2.2 (by decide) (by decide)).1, ((h.2.2 (by decide) (by decide)).2.1 (by decide)).1⟩

-- ===== C1: NormalizeOwner on absolute inputs =====

/-- Claim C1 counterexample: `bexample.com.` is accepted for zone
`example.com.` although the apex is not a proper DNS-name suffix of it (the
code checks a plain byte-string suffix, not label-aligned and not proper). -/
theorem normalizeOwner_proper_suffix_counterexample :
    ¬(((NormalizeOwner (strOf "bexample.com.") (strOf "example.com.")).isSome = true) ↔
      strictlyBelowApex (strToLower (strOf "bexample.com.")) (strOf "example.com.") = true) := by
  decide

/-- Claim C1 (amended): for inputs whose trimmed form ends with the root
marker, `NormalizeOwner` succeeds exactly when the lowercased apex is a plain
byte-string suffix of the lowercased trimmed input — equality with the apex
and non-label-aligned suffixes included. -/
theorem normalizeOwner_absolute_iff_suffix (input zone : Str)
    (h : hasSuffix (trimSpace input) (strOf ".") = true) :
    (NormalizeOwner input zone).isSome = true ↔
      hasSuffix (strToLower (trimSpace input)) (strToLower zone) = true := by
  have hne : trimSpace input ≠ strOf "@" := by
    intro he
    rw [he] at h
    exact absurd h (by decide)
  unfold NormalizeOwner
  rw [if_neg hne, if_pos h]
  cases hc : hasSuffix (strToLower (trimSpace input)) (strToLower zone) with
  | false => simp [hc]
  | true => simp [hc]

/-- Witness for the amended C1 at a concrete absolute owner. -/
theorem normalizeOwner_absolute_iff_suffix_witness :
    hasSuffix (trimSpace (strOf "www.Example.com.")) (strOf ".") = true ∧
    ((NormalizeOwner (strOf "www.Example.com.") (strOf "example.com.")).isSome = true ↔
      hasSuffix (strToLower (trimSpace (strOf "www.Example.com.")))
        (strToLower (strOf "example.com.")) = true) :=
  ⟨by decide, normalizeOwner_absolute_iff_suffix (strOf "www.Example.com.")
    (strOf "example.com.") (by decide)⟩

-- ===== C9: NormalizeOwner stays within the zone =====

/-- Every zone is within itself. -/
theorem isWithinZone_refl (z : Str) : IsWithinZone z z = true := by
  simp only [IsWithinZone]
  exact decide_eq_true (List.suffix_refl _)

/-- A lowercased owner ending with a dot that has the lowercased zone as a
suffix is within the zone. -/
theorem isWithinZone_of_dotted (w zone : Str)
    (hlow : strToLower w = w) (hdot : [46] <:+ w) (hsuf : strToLower zone <:+ w) :
    IsWithinZone w zone = true := by
  have hwdot : hasSuffix w (strOf ".") = true := by
    rw [strOf_dot]
    exact decide_eq_true hdot
  simp only [IsWithinZone, hlow]
  rw [if_pos hwdot]
  by_cases hz : hasSuffix (strToLower zone) (strOf ".") = true
  · rw [if_pos hz]
    exact decide_eq_true hsuf
  · rw [if_neg hz]
    rcases List.eq_nil_or_concat (strToLower zone) with hnil | ⟨z0, b, hzb⟩
    · rw [hnil, List.nil_append]
      exact hwdot
    · exfalso
      apply hz
      obtain ⟨u, hu⟩ := hsuf
      have hwl : w.getLast? = some b := by
        rw [← hu, hzb, List.getLast?_append]
        simp
      have hb : b = 46 := by
        have h46 := (singleton_suffix_iff w 46).mp hdot
        rw [hwl] at h46
        exact Option.some_inj.mp h46
      rw [strOf_dot]
      refine decide_eq_true ?_
      rw [hzb, hb]
      exact ⟨z0, (List.concat_eq_append z0 46).symm⟩

/-- A lowercased owner not ending with a dot that has the lowercased zone as
a suffix is within the zone. -/
theorem isWithinZone_of_undotted (w zone : Str)
    (hlow : strToLower w = w) (hnd : ¬([46] <:+ w)) (hsuf : strToLower zone <:+ w) :
    IsWithinZone w zone = true := by
  have hwdot : ¬(hasSuffix w (strOf ".") = true) := by
    rw [strOf_dot]
    simpa [hasSuffix] using hnd
  have hzdot : ¬(hasSuffix (strToLower zone) (strOf ".") = true) := by
    rw [strOf_dot]
    have hz : ¬([46] <:+ strToLower zone) := fun hc => hnd (hc.trans hsuf)
    simpa [hasSuffix] using hz
  simp only [IsWithinZone, hlow]
  rw [if_neg hwdot, if_neg hzdot, strOf_dot]
  exact decide_eq_true (suffix_append_right _ _ _ hsuf)

/-- Claim C9: every owner accepted by `NormalizeOwner` (the `@` form,
absolute inputs, and relative inputs) satisfies `IsWithinZone` for its zone. -/
theorem normalizeOwner_within_zone (input zone w : Str)
    (h : NormalizeOwner input zone = some w) :
    IsWithinZone w zone = true := by
  unfold NormalizeOwner at h
  by_cases h1 : trimSpace input = strOf "@"
  · rw [if_pos h1] at h
    obtain rfl := Option.some_inj.mp h
    exact isWithinZone_refl _
  · rw [if_neg h1] at h
    by_cases h2 : hasSuffix (trimSpace input) (strOf ".") = true
    · rw [if_pos h2] at h
      by_cases h3 : hasSuffix (strToLower (trimSpace input)) (strToLower zone) = true
      · rw [if_pos h3] at h
        obtain rfl := Option.some_inj.mp h
        refine isWithinZone_of_dotted _ _ (strToLower_idem _) ?_ ?_
        · have : [46] <:+ trimSpace input := by simpa [hasSuffix, strOf_dot] using h2
          simpa using this.map toLowerB
        · simpa [hasSuffix] using h3
      · rw [if_neg h3] at h
        exact absurd h (by simp)
    · rw [if_neg h2] at h
      obtain rfl := Option.some_inj.mp h
      have hw : strToLower (trimSpace input ++ strOf "." ++ zone) =
          strToLower (trimSpace input) ++ [46] ++ strToLower zone := by
        simp [strToLower, strOf_dot]
        decide
      by_cases hd : [46] <:+ strToLower (trimSpace input ++ strOf "." ++ zone)
      · refine isWithinZone_of_dotted _ _ (strToLower_idem _) hd ?_
        rw [hw]
        exact (List.suffix_append _ _)
      · refine isWithinZone_of_undotted _ _ (strToLower_idem _) hd ?_
        rw [hw]
        exact (List.suffix_append _ _)

/-- Witness for C9 on a concrete relative owner. -/
theorem normalizeOwner_within_zone_witness :
    NormalizeOwner (strOf "www") (strOf "example.com.") = some (strOf "www.example.com.") ∧
    IsWithinZone (strOf "www.example.com.") (strOf "example.com.") = true :=
  ⟨by decide, normalizeOwner_within_zone (strOf "www") (strOf "example.com.")
    (strOf "www.example.com.") (by decide)⟩

-- ===== C5: SHA1WireLabel =====

/-- Length of a hex encoding. -/
theorem hexEncode_length (bs : List Nat) : (hexEncode bs).length = 2 * bs.length := by
  induction bs with
  | nil => rfl
  | cons b t ih =>
    simp only [hexEncode, List.foldr] at *
    simp [ih]
    omega

/-- A SHA-1 digest has 20 bytes. -/
theorem sha1_length (msg : List Nat) : (sha1 msg).length = 20 := by
  simp [sha1, be4]

/-- Hex digits of nibbles are lowercase hex characters. -/
theorem hexDigit_hex (n : Nat) (h : n < 16) :
    (48 ≤ hexDigit n ∧ hexDigit n ≤ 57) ∨ (97 ≤ hexDigit n ∧ hexDigit n ≤ 102) := by
  unfold hexDigit
  split <;> omega

/-- Hex encodings of byte lists consist of lowercase hex characters. -/
theorem hexEncode_chars (bs : List Nat) (hb : ∀ b ∈ bs, b < 256) :
    ∀ c ∈ hexEncode bs, (48 ≤ c ∧ c ≤ 57) ∨ (97 ≤ c ∧ c ≤ 102) := by
  induction bs with
  | nil => intro c hc; simp [hexEncode] at hc
  | cons b t ih =>
    intro c hc
    have hblt : b < 256 := hb b (List.mem_cons_self b t)
    simp only [hexEncode, List.foldr] at hc
    rcases List.mem_cons.mp hc with rfl | hc2
    · exact hexDigit_hex _ (Nat.div_lt_of_lt_mul hblt)
    · rcases List.mem_cons.mp hc2 with rfl | hc3
      · exact hexDigit_hex _ (Nat.mod_lt _ (by norm_num))
      · exact ih (fun x hx => hb x (List.mem_cons_of_mem b hx)) c hc3

/-- All SHA-1 digest bytes are below 256. -/
theorem sha1_bytes_lt (msg : List Nat) : ∀ b ∈ sha1 msg, b < 256 := by
  intro b hb
  simp [sha1, be4] at hb
  omega

/-- Mapping commutes with `dropWhile` for predicates the map preserves. -/
theorem dropWhile_map_comm (f : Nat → Nat) (p : Nat → Bool) (l : List Nat)
    (hc : ∀ b, p (f b) = p b) : (l.map f).dropWhile p = (l.dropWhile p).map f := by
  induction l with
  | nil => rfl
  | cons a t ih =>
    simp only [List.map, List.dropWhile_cons, hc a]
    split <;> simp [ih]

/-- Mapping commutes with `trimSpace` for maps preserving white space. -/
theorem trimSpace_map (f : Nat → Nat) (s : Str)
    (hsp : ∀ b, isSpaceB (f b) = isSpaceB b) :
    trimSpace (s.map f) = (trimSpace s).map f := by
  unfold trimSpace
  rw [dropWhile_map_comm f _ _ hsp, ← List.map_reverse, dropWhile_map_comm f _ _ hsp,
      ← List.map_reverse]

/-- Mapping preserves the trailing-dot test for maps fixing exactly the dot. -/
theorem hasSuffix_dot_map (f : Nat → Nat) (s : Str)
    (hf : ∀ b, f b = 46 ↔ b = 46) :
    hasSuffix (s.map f) (strOf ".") = hasSuffix s (strOf ".") := by
  rw [strOf_dot, Bool.eq_iff_iff, hasSuffix, hasSuffix, decide_eq_true_eq, decide_eq_true_eq,
      singleton_suffix_iff, singleton_suffix_iff, List.getLast?_map]
  cases s.getLast? with
  | none => simp
  | some b => simpa using hf b

/-- Splitting never yields the empty list of segments. -/
theorem splitOnByte_ne_nil (sep : Nat) (l : Str) : splitOnByte sep l ≠ [] := by
  cases l with
  | nil => simp [splitOnByte]
  | cons b t =>
    simp only [splitOnByte]
    cases hs : splitOnByte sep t with
    | nil => simp
    | cons s ss =>
      by_cases hb : b = sep
      · simp [hb]
      · simp [hb]

/-- Splitting commutes with maps fixing exactly the separator. -/
theorem splitOnByte_map (f : Nat → Nat) (s : Str)
    (hf : ∀ b, f b = 46 ↔ b = 46) :
    splitOnByte 46 (s.map f) = (splitOnByte 46 s).map (List.map f) := by
  induction s with
  | nil => rfl
  | cons b t ih =>
    rcases hs : splitOnByte 46 t with _ | ⟨s0, ss⟩
    · exact absurd hs (splitOnByte_ne_nil 46 t)
    · simp only [List.map, splitOnByte, hs, ih]
      by_cases hb : b = 46
      · rw [if_pos ((hf b).mpr hb), if_pos hb]
        rfl
      · rw [if_neg (fun hc => hb ((hf b).mp hc)), if_neg hb]
        rfl

/-- The wire-format fold ignores case differences handled by its own
lowercasing. -/
theorem wireFold_map_upper (labs : List Str) :
    (labs.map (List.map toUpperB)).foldr
      (fun label acc => (label.length % 256) :: (strToLower label ++ acc)) [0] =
    labs.foldr (fun label acc => (label.length % 256) :: (strToLower label ++ acc)) [0] := by
  induction labs with
  | nil => rfl
  | cons a t ih =>
    simp only [List.map, List.foldr, ih, List.length_map]
    congr 1
    simp only [strToLower, List.map_map]
    exact congrArg (· ++ _) (List.map_congr_left (fun b _ => toLowerB_toUpperB b))

/-- DNS wire format is invariant under ASCII uppercasing of the name. -/
theorem dnsWireFormat_upper (z : Str) :
    dnsWireFormat (strToUpper z) = dnsWireFormat z := by
  simp only [dnsWireFormat, strToUpper]
  rw [trimSpace_map toUpperB z isSpaceB_toUpperB,
      hasSuffix_dot_map toUpperB (trimSpace z) toUpperB_dot_iff]
  by_cases h : hasSuffix (trimSpace z) (strOf ".") = true
  · rw [if_pos h, if_pos h, splitOnByte_map toUpperB _ toUpperB_dot_iff,
        List.filter_map]
    have hpe : ((fun l => !l.isEmpty) ∘ List.map toUpperB) = (fun l : Str => !l.isEmpty) := by
      funext l
      cases l <;> rfl
    rw [hpe, wireFold_map_upper]
  · rw [if_neg h, if_neg h]
    have hm : (trimSpace z).map toUpperB ++ strOf "." =
        ((trimSpace z) ++ strOf ".").map toUpperB := by
      rw [List.map_append]
      rfl
    rw [hm, splitOnByte_map toUpperB _ toUpperB_dot_iff, List.filter_map]
    have hpe : ((fun l => !l.isEmpty) ∘ List.map toUpperB) = (fun l : Str => !l.isEmpty) := by
      funext l
      cases l <;> rfl
    rw [hpe, wireFold_map_upper]

/-- Splitting a string extended by the separator appends an empty segment. -/
theorem splitOnByte_append_sep (s : Str) :
    splitOnByte 46 (s ++ [46]) = splitOnByte 46 s ++ [[]] := by
  induction s with
  | nil => rfl
  | cons b t ih =>
    rcases hs : splitOnByte 46 t with _ | ⟨s0, ss⟩
    · exact absurd hs (splitOnByte_ne_nil 46 t)
    · simp only [List.cons_append, splitOnByte, List.append_eq, ih, hs]
      by_cases hb : b = 46
      · rw [if_pos hb, if_pos hb]
        rfl
      · rw [if_neg hb, if_neg hb]
        rfl

/-- DNS wire format is invariant under appending a trailing dot to a
white-space-free name. -/
theorem dnsWireFormat_concat_dot (u : Str) (hu : ∀ b ∈ u, isSpaceB b = false) :
    dnsWireFormat (u ++ [46]) = dnsWireFormat u := by
  have hsp : ∀ b ∈ u ++ [46], isSpaceB b = false := by
    intro b hb
    rcases List.mem_append.mp hb with h | h
    · exact hu b h
    · simp at h
      rw [h]
      rfl
  simp only [dnsWireFormat]
  rw [trimSpace_eq_self _ hsp, trimSpace_eq_self _ hu]
  have hdot : hasSuffix (u ++ [46]) (strOf ".") = true := by
    rw [strOf_dot]
    exact decide_eq_true ⟨u, rfl⟩
  rw [if_pos hdot]
  by_cases h : hasSuffix u (strOf ".") = true
  · rw [if_pos h]
    have h46 : [46] <:+ u := by
      rw [strOf_dot] at h
      exact of_decide_eq_true h
    obtain ⟨v, hv⟩ := h46
    rw [← hv, splitOnByte_append_sep, List.filter_append]
    simp
  · rw [if_neg h, strOf_dot]

set_option maxRecDepth 100000 in
/-- Claim C5: the catalog member label is 40 lowercase hex characters,
invariant under ASCII case and under a trailing dot, and on `example.com.`
it equals the published SHA-1 test vector. -/
theorem sha1WireLabel_props (z : Str) (hz : ∀ b ∈ z, isSpaceB b = false) :
    (SHA1WireLabel z).length = 40 ∧
    (∀ c ∈ SHA1WireLabel z, (48 ≤ c ∧ c ≤ 57) ∨ (97 ≤ c ∧ c ≤ 102)) ∧
    SHA1WireLabel z = SHA1WireLabel (strToUpper z) ∧
    (hasSuffix z (strOf ".") = true → SHA1WireLabel z = SHA1WireLabel z.dropLast) ∧
    SHA1WireLabel (strOf "example.com.") =
      strOf "c5e4b4da1e5a620ddaa3635e55c3732a5b49c7f4" := by
  refine ⟨?_, ?_, ?_, ?_, ?_⟩
  · rw [SHA1WireLabel, hexEncode_length, sha1_length]
  · exact fun c hc => hexEncode_chars _ (sha1_bytes_lt _) c hc
  · rw [SHA1WireLabel, SHA1WireLabel, dnsWireFormat_upper]
  · intro hdot
    rw [strOf_dot] at hdot
    obtain ⟨u, hu⟩ := of_decide_eq_true hdot
    have hul : ∀ b ∈ u, isSpaceB b = false := by
      intro b hb
      exact hz b (by rw [← hu]; exact List.mem_append.mpr (Or.inl hb))
    rw [← hu, List.dropLast_concat, SHA1WireLabel, SHA1WireLabel,
        dnsWireFormat_concat_dot u hul]
  · decide

/-- Witness for C5 at the canonical zone `example.com.`. -/
theorem sha1WireLabel_props_witness :
    (∀ b ∈ strOf "example.com.", isSpaceB b = false) ∧
    ((SHA1WireLabel (strOf "example.com.")).length = 40 ∧
     SHA1WireLabel (strOf "example.com.") =
       SHA1WireLabel (strToUpper (strOf "example.com.")) ∧
     (hasSuffix (strOf "example.com.") (strOf ".") = true →
       SHA1WireLabel (strOf "example.com.") =
         SHA1WireLabel (strOf "example.com.").dropLast)) := by
  have h := sha1WireLabel_props (strOf "example.com.") (by decide)
  exact ⟨by decide, h.1, h.2.2.1, h.2.2.2.1⟩
